import Mathlib

/-!
Verification of the variation-enumeration logic (`src/DataAugmentation/main.py`)
and the resumable batch-evaluation loop (`src/Evaluation/evaluate.py`) of the
Sproj-LLM-Biases repository, as a shallow embedding in Lean 4.

Python dictionaries whose keys are drawn from the two original entities are
embedded as association lists in insertion order (`List (String × String)`);
Python's dict-literal overwrite semantics for a repeated key is modelled by
`dict2`.  The `frozenset(swaps.items())` deduplication key is modelled by a
canonical sorted form of the association list (`frozen`): two lists have the
same `frozen` image exactly when they hold the same set of pairs, which is
what frozenset equality tests.
-/

namespace DataAugmentation

/-- VAR_TYPE_2 of `main.py` (VAR_TYPE_1 is commented out in the source). -/
def VAR_TYPE_2 : String :=
  "Alter polarity (switch between 'neg' and 'pos') and also the question to match the negative or positive polarity"

/-- VAR_TYPE_3 of `main.py`. -/
def VAR_TYPE_3 : String :=
  "Add more context favoring first group (change 'ambig' to 'disambig') and add one line of context (should not be vague) that supports the first group over the second group. Change the label according to the correct answer."

/-- VAR_TYPE_4 of `main.py`. -/
def VAR_TYPE_4 : String :=
  "Add more context favoring second group (change 'ambig' to 'disambig') and add one line of context (should not be vague) that supports the second group over the first group. Change the label according to the correct answer."

/-- The `variation_types` list of `main.py`: VAR_TYPE_1 is commented out there,
so only types 2, 3 and 4 are enumerated. -/
def variation_types : List String := [VAR_TYPE_2, VAR_TYPE_3, VAR_TYPE_4]

/-- `itertools.combinations(items, r)`: all length-`r` subsequences of `items`
in positional (lexicographic-by-index) order. -/
def combinations {α : Type} : Nat → List α → List (List α)
  | 0, _ => [[]]
  | _ + 1, [] => []
  | r + 1, x :: xs => (combinations r xs).map (fun c => x :: c) ++ combinations (r + 1) xs

/-- `powerset` of `main.py`: all non-empty subsets of the input as lists,
`chain.from_iterable(combinations(items, r) for r in range(1, len(items)+1))`. -/
def powerset (l : List String) : List (List String) :=
  (List.range l.length).flatMap (fun r => combinations (r + 1) l)

/-- `filter_incompatible_variations` of `main.py`: drop every subset that
contains both context-bias variation types (VAR_TYPE_3 and VAR_TYPE_4). -/
def filter_incompatible_variations (variation_subsets : List (List String)) :
    List (List String) :=
  variation_subsets.filter (fun s => !(s.contains VAR_TYPE_3 && s.contains VAR_TYPE_4))

/-- The Python dict literal `{k: v}` as an association list. -/
def dict1 (k v : String) : List (String × String) := [(k, v)]

/-- The Python dict literal `{k1: v1, k2: v2}`: when the keys coincide the
second assignment overwrites the first, leaving a single entry. -/
def dict2 (k1 v1 k2 v2 : String) : List (String × String) :=
  if k1 = k2 then [(k1, v2)] else [(k1, v1), (k2, v2)]

/-- `generate_entity_swap_combinations` of `main.py`.  `entity_lists` embeds the
Python dict of per-entity replacement candidates via its `.get(key, [])`
behaviour, i.e. as a total function defaulting to the empty list.  A candidate
is used only when it is truthy (non-empty) and differs from both originals;
in the both-entities case the two candidates must also differ from each other. -/
def generate_entity_swap_combinations (entity_lists : String → List String) :
    List String → List (List (String × String))
  | [orig_entity1, orig_entity2] =>
    let entity1_swap_list := entity_lists orig_entity1
    let entity2_swap_list := entity_lists orig_entity2
    [[]]
      ++ ((entity1_swap_list.filter
            (fun n => n ≠ "" ∧ n ≠ orig_entity1 ∧ n ≠ orig_entity2)).map
          (fun n => dict1 orig_entity1 n))
      ++ ((entity2_swap_list.filter
            (fun n => n ≠ "" ∧ n ≠ orig_entity1 ∧ n ≠ orig_entity2)).map
          (fun n => dict1 orig_entity2 n))
      ++ (((entity1_swap_list.flatMap (fun e1 => entity2_swap_list.map (fun e2 => (e1, e2)))).filter
            (fun p => p.1 ≠ "" ∧ p.2 ≠ "" ∧ p.1 ≠ p.2 ∧ p.1 ≠ orig_entity1 ∧
              p.1 ≠ orig_entity2 ∧ p.2 ≠ orig_entity1 ∧ p.2 ≠ orig_entity2)).map
          (fun p => dict2 orig_entity1 p.1 orig_entity2 p.2))
  | _ => []

/-- A total order on string pairs used to canonicalise `frozenset` keys. -/
def pairLe (a b : String × String) : Prop :=
  a.1 < b.1 ∨ (a.1 = b.1 ∧ a.2 ≤ b.2)

instance : DecidableRel pairLe := fun a b =>
  inferInstanceAs (Decidable (a.1 < b.1 ∨ (a.1 = b.1 ∧ a.2 ≤ b.2)))

/-- `frozenset(swaps.items())`: the set of entries of a dict, embedded as the
sorted, duplicate-free canonical form of the association list (two lists get
the same canonical form exactly when they hold the same set of pairs). -/
def frozen (l : List (String × String)) : List (String × String) :=
  List.insertionSort pairLe l.dedup

/-- `get_all_combinations` of `main.py`: the cartesian product of the filtered
non-empty variation subsets with the entity-swap dicts, deduplicated on the key
`(tuple(vars), frozenset(swaps.items()))` in first-seen order. -/
def get_all_combinations (entity_lists : String → List String)
    (original_entities : List String) :
    List (List String × List (String × String)) :=
  let variation_subsets := filter_incompatible_variations (powerset variation_types)
  let swap_dicts := generate_entity_swap_combinations entity_lists original_entities
  let pairs := variation_subsets.flatMap (fun v => swap_dicts.map (fun s => (v, s)))
  (pairs.foldl
    (fun acc p =>
      if (p.1, frozen p.2) ∈ acc.1 then acc else ((p.1, frozen p.2) :: acc.1, acc.2 ++ [p]))
    (([], []) :
      List (List String × List (String × String)) ×
        List (List String × List (String × String)))).2

/-- A concrete candidate table with no replacement candidates at all. -/
def elEmpty : String → List String := fun _ => []

/-- The candidate table of the spec's worked example:
`{"Ali": ["Hassan"], "Sara": ["Ayesha"]}` read through `.get(key, [])`. -/
def swapListsAliSara : String → List String :=
  fun k => if k = "Ali" then ["Hassan"] else if k = "Sara" then ["Ayesha"] else []

/-- A candidate table offering the empty string as the sole replacement
candidate for "Ali". -/
def swapListsEmptyString : String → List String :=
  fun k => if k = "Ali" then [""] else []

end DataAugmentation

namespace Evaluation

/-- One parsed line of an input `.jsonl` file, with the fields `evaluate` of
`evaluate.py` reads from it.  `label` holds `int(example.get("label", -1))`,
i.e. the ground-truth answer index as parsed by the source. -/
structure Example where
  context : String
  question : String
  ans0 : String
  ans1 : String
  ans2 : String
  label : Int
  category : String
  context_condition : String
  question_polarity : String
  stereotyped_groups : List String
deriving DecidableEq

/-- One row of the result CSV (`results.csv`), in the column order of
`evaluate.py`. -/
structure ResultRow where
  source_file : String
  line_index : Nat
  context : String
  question : String
  ans0 : String
  ans1 : String
  ans2 : String
  model_choice : String
  correct_choice : Int
  category : String
  context_condition : String
  polarity : String
  stereotyped_groups : String
  correct : Bool
deriving DecidableEq

/-- The persisted progress record `{"last_file": ..., "last_line": ...}`.
`last_line` is an `Int` because its default value is `-1`. -/
structure Progress where
  last_file : Option String
  last_line : Int
deriving DecidableEq

/-- `save_progress` of `evaluate.py`: the progress record that gets written to
the progress file. -/
def save_progress (last_file : Option String) (last_line : Int) : Progress :=
  ⟨last_file, last_line⟩

/-- `load_progress` of `evaluate.py` when no progress file exists yet: the
default cursor `{"last_file": None, "last_line": -1}`. -/
def load_progress_default : Progress := ⟨none, -1⟩

/-- The observable outcome of one `query_groq` call inside the loop: a
successful classification (the returned letter) or an exception. -/
inductive Event where
  | classified (file : String) (idx : Nat) (choice : String)
  | failed (file : String) (idx : Nat)
deriving DecidableEq

/-- The (file name, line index) position an event happened at. -/
def eventPair : Event → String × Nat
  | .classified f i _ => (f, i)
  | .failed f i => (f, i)

/-- Whether an event is a successful classification. -/
def Event.isClassified : Event → Bool
  | .classified _ _ _ => true
  | .failed _ _ => false

/-- The (file name, line index) of an event when it is a successful
classification, `none` for a failure. -/
def classifiedPair : Event → Option (String × Nat)
  | .classified f i _ => some (f, i)
  | .failed _ _ => none

/-- The mutable state the evaluation loop threads: the result store (the rows
of `results.csv`), the persisted progress cursor, the global `processed_count`,
and the trace of `query_groq` outcomes observed so far (oldest first), which
models the source's log of successes and `Skipping line ... due to API error`
failures. -/
structure RunState where
  store : List ResultRow
  prog : Progress
  count : Nat
  events : List Event
deriving DecidableEq

/-- The external classification collaborator: `query_groq(context, question,
ans0, ans1, ans2)`, returning `none` when the call raises after its retries
are exhausted. -/
def Query : Type := String → String → String → String → String → Option String

/-- `CATEGORY_LIMIT` of `evaluate.py`: the per-invocation cap on processed
records. -/
def CATEGORY_LIMIT : Nat := 5

/-- The dict `letter_to_idx = {"A": 0, "B": 1, "C": 2}` read through `.get`:
an unmapped letter yields `none` (Python `None`). -/
def letter_to_idx (s : String) : Option Int :=
  if s = "A" then some 0 else if s = "B" then some 1 else if s = "C" then some 2 else none

/-- The result row built for a successfully classified record, mirroring the
`result = {...}` dict of `evaluate.py`.  `correct` embeds
`model_idx == correct_idx` where `model_idx` is `Optional[int]`: Python's
`None == int` is `False`, which the `Option Int` equality test reproduces. -/
def mkRow (file_name : String) (idx : Nat) (ex : Example) (model_choice : String) :
    ResultRow :=
  let correct_idx : Int := ex.label
  { source_file := file_name
    line_index := idx
    context := ex.context
    question := ex.question
    ans0 := ex.ans0
    ans1 := ex.ans1
    ans2 := ex.ans2
    model_choice := model_choice
    correct_choice := correct_idx
    category := ex.category
    context_condition := ex.context_condition
    polarity := ex.question_polarity
    stereotyped_groups := String.intercalate ", " ex.stereotyped_groups
    correct := letter_to_idx model_choice == some correct_idx }

/-- The inner `for idx, line in enumerate(f)` loop of `evaluate` for one file,
starting at line index `idx`.  Returns `(true, _)` when the loop body executed
`return` (a `query_groq` exception: progress is saved at the failing line and
the whole run terminates) and `(false, _)` when the loop ended or hit the
`CATEGORY_LIMIT` break (which resets `processed_count` to zero). -/
def processRecords (q : Query) (resume_from_file : Option String) (resume_from_line : Int)
    (file_name : String) :
    List Example → Nat → RunState → Bool × RunState
  | [], _, st => (false, st)
  | ex :: rest, idx, st =>
    if resume_from_file = some file_name ∧ (idx : Int) ≤ resume_from_line then
      processRecords q resume_from_file resume_from_line file_name rest (idx + 1) st
    else if CATEGORY_LIMIT ≤ st.count then
      (false, { st with count := 0 })
    else
      match q ex.context ex.question ex.ans0 ex.ans1 ex.ans2 with
      | none =>
        (true, { st with prog := save_progress (some file_name) (idx : Int),
                         events := st.events ++ [Event.failed file_name idx] })
      | some model_choice =>
        processRecords q resume_from_file resume_from_line file_name rest (idx + 1)
          { store := st.store ++ [mkRow file_name idx ex model_choice]
            prog := save_progress (some file_name) (idx : Int)
            count := st.count + 1
            events := st.events ++ [Event.classified file_name idx model_choice] }

/-- The outer `for file_path in sorted(glob.glob(...))` loop of `evaluate`:
each entry of `files` is a `(basename, parsed records)` pair, already in the
sorted order the source iterates in.  While `resume` is false, files whose
name differs from `resume_from_file` are skipped; the run ends early when the
inner loop reports a `query_groq` exception.  The returned flag records
whether the run terminated through that exception path. -/
def processFiles (q : Query) (resume_from_file : Option String) (resume_from_line : Int) :
    List (String × List Example) → Bool → RunState → Bool × RunState
  | [], _, st => (false, st)
  | (file_name, records) :: rest, resume, st =>
    if resume = false ∧ resume_from_file ≠ some file_name then
      processFiles q resume_from_file resume_from_line rest resume st
    else
      match processRecords q resume_from_file resume_from_line file_name records 0 st with
      | (true, st2) => (true, st2)
      | (false, st2) => processFiles q resume_from_file resume_from_line rest true st2

/-- `evaluate` of `evaluate.py` over already-parsed inputs: `store0` is the
pre-existing contents of the result CSV, `prog0` the loaded progress cursor,
and the global `processed_count` starts at zero.  The first component records
whether the run terminated through the exception path. -/
def evaluate (q : Query) (files : List (String × List Example))
    (store0 : List ResultRow) (prog0 : Progress) : Bool × RunState :=
  processFiles q prog0.last_file prog0.last_line files prog0.last_file.isNone
    { store := store0, prog := prog0, count := 0, events := [] }

/-- The (source_file, line_index) key of a result row. -/
def rowPair (r : ResultRow) : String × Nat := (r.source_file, r.line_index)

/-- `g` names a file that appears strictly after the file named `f` in the
file list. -/
def fileAfter (files : List (String × List Example)) (f g : String) : Prop :=
  ∃ pre recs post, files = pre ++ (f, recs) :: post ∧ g ∈ post.map Prod.fst

/-- The position `(g, i)` lies strictly after the persisted cursor `prog`:
every position does when no file is recorded; otherwise `(g, i)` is a later
line of the recorded file, or a line of a strictly later file. -/
def pairAfterCursor (files : List (String × List Example)) (prog : Progress)
    (g : String) (i : Nat) : Prop :=
  match prog.last_file with
  | none => True
  | some f => (g = f ∧ prog.last_line < (i : Int)) ∨ fileAfter files f g

/-- A concrete benchmark record used in witnesses and counterexamples. -/
def exW : Example := ⟨"c", "q", "a0", "a1", "a2", 1, "cat", "ambig", "neg", []⟩

/-- A query collaborator whose call always raises. -/
def qFail : Query := fun _ _ _ _ _ => none

/-- A query collaborator that always answers the letter A. -/
def qA : Query := fun _ _ _ _ _ => some "A"

/-- A run state whose `processed_count` already sits at the category limit. -/
def stAtLimit : RunState := ⟨[], load_progress_default, 5, []⟩

end Evaluation

set_option maxRecDepth 100000

namespace DataAugmentation

lemma length_of_mem_combinations {α : Type} :
    ∀ (l : List α) (n : Nat) (c : List α), c ∈ combinations n l → c.length = n := by
  intro l
  induction l with
  | nil =>
    intro n c hc
    cases n with
    | zero => simp only [combinations, List.mem_singleton] at hc; simp [hc]
    | succ m => simp [combinations] at hc
  | cons x xs ih =>
    intro n c hc
    cases n with
    | zero => simp only [combinations, List.mem_singleton] at hc; simp [hc]
    | succ m =>
      simp only [combinations, List.mem_append, List.mem_map] at hc
      rcases hc with ⟨c2, hc2, rfl⟩ | hc
      · simp [ih _ _ hc2]
      · exact ih _ _ hc

lemma ne_nil_of_mem_powerset {l c : List String} (hc : c ∈ powerset l) : c ≠ [] := by
  simp only [powerset, List.mem_flatMap, List.mem_range] at hc
  rcases hc with ⟨r, _, hc⟩
  have hl := length_of_mem_combinations l (r + 1) c hc
  intro hnil
  rw [hnil] at hl
  simp at hl

lemma of_mem_filter_incompatible {L : List (List String)} {c : List String}
    (hc : c ∈ filter_incompatible_variations L) :
    c ∈ L ∧ ¬(VAR_TYPE_3 ∈ c ∧ VAR_TYPE_4 ∈ c) := by
  simp only [filter_incompatible_variations, List.mem_filter, Bool.not_eq_true',
    Bool.and_eq_false_iff] at hc
  rcases hc with ⟨hmem, hb⟩
  refine ⟨hmem, ?_⟩
  rintro ⟨h3, h4⟩
  rcases hb with hb | hb
  · simp at hb
    exact hb h3
  · simp at hb
    exact hb h4

lemma mem_of_mem_dedup_foldl :
    ∀ (pairs : List (List String × List (String × String)))
      (acc : List (List String × List (String × String)) ×
        List (List String × List (String × String)))
      (p : List String × List (String × String)),
      p ∈ (pairs.foldl
        (fun acc p =>
          if (p.1, frozen p.2) ∈ acc.1 then acc else ((p.1, frozen p.2) :: acc.1, acc.2 ++ [p]))
        acc).2 →
      p ∈ acc.2 ∨ p ∈ pairs := by
  intro pairs
  induction pairs with
  | nil => intro acc p hp; exact Or.inl hp
  | cons q rest ih =>
    intro acc p hp
    simp only [List.foldl_cons] at hp
    rcases ih _ p hp with h | h
    · by_cases hk : (q.1, frozen q.2) ∈ acc.1
      · rw [if_pos hk] at h
        exact Or.inl h
      · rw [if_neg hk] at h
        rcases List.mem_append.1 h with h | h
        · exact Or.inl h
        · simp only [List.mem_singleton] at h
          exact Or.inr (h ▸ List.mem_cons_self q rest)
    · exact Or.inr (List.mem_cons_of_mem _ h)

lemma mem_get_all_combinations {el : String → List String} {orig : List String}
    {p : List String × List (String × String)}
    (hp : p ∈ get_all_combinations el orig) :
    p.1 ∈ filter_incompatible_variations (powerset variation_types) ∧
    p.2 ∈ generate_entity_swap_combinations el orig := by
  simp only [get_all_combinations] at hp
  rcases mem_of_mem_dedup_foldl _ _ _ hp with h | h
  · simp at h
  · simp only [List.mem_flatMap, List.mem_map] at h
    rcases h with ⟨v, hv, s, hs, rfl⟩
    exact ⟨hv, hs⟩

lemma generate_eq_nil (el : String → List String) :
    ∀ (orig : List String), orig.length ≠ 2 →
      generate_entity_swap_combinations el orig = [] := by
  intro orig h
  rcases orig with _ | ⟨a, _ | ⟨b, _ | ⟨c, t⟩⟩⟩
  · rfl
  · rfl
  · exact absurd rfl h
  · rfl

/-- C1 (corrected): contrary to the claim, the result of `get_all_combinations`
never contains the all-empty pair at all — `powerset` starts at subset size 1 —
so on a valid input with two distinct originals its count there is 0, not 1. -/
theorem claim1_counterexample :
    ([], ([] : List (String × String))) ∉ get_all_combinations elEmpty ["x", "y"] := by
  decide

/-- C1 (amended): the all-empty VariationRequest appears zero times in the
enumeration result: every transform subset produced by `get_all_combinations`
is non-empty, because `powerset` enumerates only non-empty subsets; the
unmodified original record is handled separately by the callers. -/
theorem claim1_amended (el : String → List String) (orig : List String) :
    (([], ([] : List (String × String))) ∉ get_all_combinations el orig) ∧
    ∀ p ∈ get_all_combinations el orig, p.1 ≠ [] := by
  have key : ∀ p ∈ get_all_combinations el orig, p.1 ≠ [] := by
    intro p hp
    exact ne_nil_of_mem_powerset (of_mem_filter_incompatible (mem_get_all_combinations hp).1).1
  exact ⟨fun h => key _ h rfl, key⟩

/-- C5 (confirmed): no enumerated transform subset contains both
mutually-exclusive context-bias types, and filtering the powerset of the
two-label catalog yields exactly the two singletons. -/
theorem claim5_mutual_exclusion :
    (∀ (el : String → List String) (orig : List String)
        (p : List String × List (String × String)),
        p ∈ get_all_combinations el orig → ¬(VAR_TYPE_3 ∈ p.1 ∧ VAR_TYPE_4 ∈ p.1)) ∧
    filter_incompatible_variations (powerset [VAR_TYPE_3, VAR_TYPE_4]) =
      [[VAR_TYPE_3], [VAR_TYPE_4]] := by
  refine ⟨?_, by decide⟩
  intro el orig p hp
  exact (of_mem_filter_incompatible (mem_get_all_combinations hp).1).2

/-- C7 (corrected): with two equal originals the length test `len != 2`
passes, so the enumerator returns a non-empty result instead of the empty one
the claim predicts. -/
theorem claim7_counterexample :
    get_all_combinations elEmpty ["Ali", "Ali"] ≠ [] := by
  decide

/-- C7 (amended): whenever `originals` does not hold exactly two entries
(fewer or more than two), the enumerator returns the empty result without
raising; distinctness of the two entries is not checked by the code. -/
theorem claim7_amended (el : String → List String) (orig : List String)
    (h : orig.length ≠ 2) : get_all_combinations el orig = [] := by
  have hg := generate_eq_nil el orig h
  have h0 : ((filter_incompatible_variations (powerset variation_types)).flatMap
      (fun v => ([] : List (List String × List (String × String))))) = [] :=
    List.flatMap_eq_nil_iff.2 (fun x _ => rfl)
  simp [get_all_combinations, hg, h0]

theorem claim7_witness : get_all_combinations elEmpty ["only"] = [] :=
  claim7_amended elEmpty ["only"] (by decide)

/-- C6 (corrected): the empty string is a candidate that differs from both
originals — so the claim's validity rules admit the single-replacement map
sending "Ali" to the empty string — yet the code never emits it, because a
candidate must also be truthy (non-empty). -/
theorem claim6_counterexample :
    ("" ∈ swapListsEmptyString "Ali" ∧ "" ≠ "Ali" ∧ "" ≠ "Sara") ∧
    [("Ali", "")] ∉ generate_entity_swap_combinations swapListsEmptyString ["Ali", "Sara"] :=
  ⟨by decide, by decide⟩

/-- C6 (amended): for two distinct originals, the swap-map candidate list
consists exactly of the empty map, each single replacement of either entity by
a non-empty candidate differing from both originals, and each pair of
non-empty, mutually distinct candidates each differing from both originals;
on the spec's worked example this yields exactly the expected 4 entries. -/
theorem claim6_amended (el : String → List String) (o1 o2 : String) (h : o1 ≠ o2)
    (m : List (String × String)) :
    (m ∈ generate_entity_swap_combinations el [o1, o2] ↔
      m = [] ∨
      (∃ n, n ∈ el o1 ∧ n ≠ "" ∧ n ≠ o1 ∧ n ≠ o2 ∧ m = [(o1, n)]) ∨
      (∃ n, n ∈ el o2 ∧ n ≠ "" ∧ n ≠ o1 ∧ n ≠ o2 ∧ m = [(o2, n)]) ∨
      (∃ a b, a ∈ el o1 ∧ b ∈ el o2 ∧ a ≠ "" ∧ b ≠ "" ∧ a ≠ b ∧
        a ≠ o1 ∧ a ≠ o2 ∧ b ≠ o1 ∧ b ≠ o2 ∧ m = [(o1, a), (o2, b)])) ∧
    generate_entity_swap_combinations swapListsAliSara ["Ali", "Sara"] =
      [[], [("Ali", "Hassan")], [("Sara", "Ayesha")], [("Ali", "Hassan"), ("Sara", "Ayesha")]] := by
  refine ⟨⟨?_, ?_⟩, by decide⟩
  · intro hm
    simp only [generate_entity_swap_combinations, List.mem_append, List.mem_cons,
      List.not_mem_nil, or_false, List.mem_map, List.mem_filter, List.mem_flatMap,
      decide_eq_true_eq] at hm
    rcases hm with ((rfl | ⟨n, ⟨hn, h0, h1, h2⟩, rfl⟩) | ⟨n, ⟨hn, h0, h1, h2⟩, rfl⟩) |
      ⟨pr, ⟨⟨a, ha, b, hb, rfl⟩, k0, k1, k2, k3, k4, k5, k6⟩, rfl⟩
    · exact Or.inl rfl
    · exact Or.inr (Or.inl ⟨n, hn, h0, h1, h2, rfl⟩)
    · exact Or.inr (Or.inr (Or.inl ⟨n, hn, h0, h1, h2, rfl⟩))
    · refine Or.inr (Or.inr (Or.inr ⟨a, b, ha, hb, k0, k1, k2, k3, k4, k5, k6, ?_⟩))
      simp [dict2, h]
  · intro hm
    simp only [generate_entity_swap_combinations, List.mem_append, List.mem_cons,
      List.not_mem_nil, or_false, List.mem_map, List.mem_filter, List.mem_flatMap,
      decide_eq_true_eq]
    rcases hm with rfl | ⟨n, hn, h0, h1, h2, rfl⟩ | ⟨n, hn, h0, h1, h2, rfl⟩ |
      ⟨a, b, ha, hb, k0, k1, k2, k3, k4, k5, k6, rfl⟩
    · exact Or.inl (Or.inl (Or.inl rfl))
    · exact Or.inl (Or.inl (Or.inr ⟨n, ⟨hn, h0, h1, h2⟩, rfl⟩))
    · exact Or.inl (Or.inr ⟨n, ⟨hn, h0, h1, h2⟩, rfl⟩)
    · refine Or.inr ⟨(a, b), ⟨⟨a, ha, b, hb, rfl⟩, k0, k1, k2, k3, k4, k5, k6⟩, ?_⟩
      simp [dict2, h]

theorem claim6_witness :
    generate_entity_swap_combinations swapListsAliSara ["Ali", "Sara"] =
      [[], [("Ali", "Hassan")], [("Sara", "Ayesha")], [("Ali", "Hassan"), ("Sara", "Ayesha")]] :=
  (claim6_amended swapListsAliSara "Ali" "Sara" (by decide) []).2

/-- C10 (confirmed): no swap map produced by the builder ever maps an original
entity to the empty string, because every candidate must pass Python's
truthiness test before being used. -/
theorem claim10_no_empty_replacement (el : String → List String) (orig : List String)
    (m : List (String × String)) (hm : m ∈ generate_entity_swap_combinations el orig) :
    ∀ p ∈ m, p.2 ≠ "" := by
  rcases orig with _ | ⟨o1, _ | ⟨o2, _ | ⟨o3, t⟩⟩⟩
  · simp [generate_entity_swap_combinations] at hm
  · simp [generate_entity_swap_combinations] at hm
  · intro p hp
    simp only [generate_entity_swap_combinations, List.mem_append, List.mem_cons,
      List.not_mem_nil, or_false, List.mem_map, List.mem_filter, List.mem_flatMap,
      decide_eq_true_eq] at hm
    rcases hm with ((rfl | ⟨n, ⟨hn, h0, h1, h2⟩, rfl⟩) | ⟨n, ⟨hn, h0, h1, h2⟩, rfl⟩) |
      ⟨pr, ⟨hmem, k0, k1, k2, k3, k4, k5, k6⟩, rfl⟩
    · simp at hp
    · simp only [dict1, List.mem_singleton] at hp
      subst hp
      exact h0
    · simp only [dict1, List.mem_singleton] at hp
      subst hp
      exact h0
    · simp only [dict2] at hp
      by_cases ho : o1 = o2
      · rw [if_pos ho] at hp
        simp only [List.mem_singleton] at hp
        subst hp
        exact k1
      · rw [if_neg ho] at hp
        simp only [List.mem_cons, List.mem_singleton, List.not_mem_nil, or_false] at hp
        rcases hp with rfl | rfl
        · exact k0
        · exact k1
  · simp [generate_entity_swap_combinations] at hm

theorem claim10_witness : ("Ali", "Hassan").2 ≠ "" :=
  claim10_no_empty_replacement swapListsAliSara ["Ali", "Sara"] [("Ali", "Hassan")]
    (by decide) ("Ali", "Hassan") (by decide)

end DataAugmentation

namespace Evaluation

lemma rowPair_mkRow (name : String) (idx : Nat) (ex : Example) (c : String) :
    rowPair (mkRow name idx ex c) = (name, idx) := rfl

lemma processRecords_run (q : Query) (rf : Option String) (rl : Int) (name : String) :
    ∀ (recs : List Example) (idx : Nat) (st : RunState),
      ∃ new newE,
        ((processRecords q rf rl name recs idx st).2).store = st.store ++ new ∧
        ((processRecords q rf rl name recs idx st).2).events = st.events ++ newE ∧
        new.map rowPair = newE.filterMap classifiedPair ∧
        (∀ row ∈ new, row.source_file = name ∧ idx ≤ row.line_index ∧
          ¬(rf = some name ∧ (row.line_index : Int) ≤ rl)) ∧
        (∀ e ∈ newE, (eventPair e).1 = name ∧ idx ≤ (eventPair e).2 ∧
          ¬(rf = some name ∧ ((eventPair e).2 : Int) ≤ rl)) ∧
        (newE.map (fun e => (eventPair e).2)).Pairwise (· < ·) := by
  intro recs
  induction recs with
  | nil =>
    intro idx st
    exact ⟨[], [], by simp [processRecords], by simp [processRecords], rfl,
      by simp, by simp, by simp⟩
  | cons ex rest ih =>
    intro idx st
    by_cases hskip : rf = some name ∧ (idx : Int) ≤ rl
    · obtain ⟨new, newE, h1, h2, h3, h4, h5, h6⟩ := ih (idx + 1) st
      refine ⟨new, newE, ?_, ?_, h3, ?_, ?_, h6⟩
      · simpa [processRecords, if_pos hskip] using h1
      · simpa [processRecords, if_pos hskip] using h2
      · intro row hrow
        obtain ⟨ha, hb, hc⟩ := h4 row hrow
        exact ⟨ha, by omega, hc⟩
      · intro e he
        obtain ⟨ha, hb, hc⟩ := h5 e he
        exact ⟨ha, by omega, hc⟩
    · by_cases hlim : CATEGORY_LIMIT ≤ st.count
      · refine ⟨[], [], ?_, ?_, rfl, by simp, by simp, by simp⟩
        · simp [processRecords, if_neg hskip, if_pos hlim]
        · simp [processRecords, if_neg hskip, if_pos hlim]
      · cases hq : q ex.context ex.question ex.ans0 ex.ans1 ex.ans2 with
        | none =>
          refine ⟨[], [Event.failed name idx], ?_, ?_, rfl, by simp, ?_, by simp⟩
          · simp [processRecords, if_neg hskip, if_neg hlim, hq]
          · simp [processRecords, if_neg hskip, if_neg hlim, hq]
          · intro e he
            simp only [List.mem_singleton] at he
            subst he
            exact ⟨rfl, Nat.le_refl idx, hskip⟩
        | some c =>
          obtain ⟨new, newE, h1, h2, h3, h4, h5, h6⟩ := ih (idx + 1)
            { store := st.store ++ [mkRow name idx ex c]
              prog := save_progress (some name) (idx : Int)
              count := st.count + 1
              events := st.events ++ [Event.classified name idx c] }
          refine ⟨mkRow name idx ex c :: new, Event.classified name idx c :: newE,
            ?_, ?_, ?_, ?_, ?_, ?_⟩
          · simp only [processRecords, if_neg hskip, if_neg hlim, hq]
            rw [h1]
            simp
          · simp only [processRecords, if_neg hskip, if_neg hlim, hq]
            rw [h2]
            simp
          · simp only [List.map_cons, List.filterMap_cons, classifiedPair]
            rw [h3, rowPair_mkRow]
          · intro row hrow
            rcases List.mem_cons.1 hrow with rfl | hrow
            · exact ⟨rfl, Nat.le_refl idx, hskip⟩
            · obtain ⟨ha, hb, hc⟩ := h4 row hrow
              exact ⟨ha, by omega, hc⟩
          · intro e he
            rcases List.mem_cons.1 he with rfl | he
            · exact ⟨rfl, Nat.le_refl idx, hskip⟩
            · obtain ⟨ha, hb, hc⟩ := h5 e he
              exact ⟨ha, by omega, hc⟩
          · rw [List.map_cons, List.pairwise_cons]
            refine ⟨?_, h6⟩
            intro k hk
            simp only [List.mem_map] at hk
            obtain ⟨e, he, rfl⟩ := hk
            have h7 := (h5 e he).2.1
            show idx < (eventPair e).2
            omega

lemma nodup_eventPairs {E : List Event}
    (hmono : (E.map (fun e => (eventPair e).2)).Pairwise (· < ·)) :
    (E.map eventPair).Nodup := by
  have h := List.pairwise_map.mp hmono
  exact List.Pairwise.map eventPair
    (fun a b hab heq => absurd hab (by rw [heq]; exact lt_irrefl _)) h

lemma processFiles_run (q : Query) (rf : Option String) (rl : Int) :
    ∀ (fs : List (String × List Example)) (resume : Bool) (st : RunState),
      ∃ new newE,
        ((processFiles q rf rl fs resume st).2).store = st.store ++ new ∧
        ((processFiles q rf rl fs resume st).2).events = st.events ++ newE ∧
        new.map rowPair = newE.filterMap classifiedPair ∧
        (∀ e ∈ newE, (eventPair e).1 ∈ fs.map Prod.fst ∧
          ¬(rf = some (eventPair e).1 ∧ ((eventPair e).2 : Int) ≤ rl)) ∧
        ((fs.map Prod.fst).Nodup → (newE.map eventPair).Nodup) := by
  intro fs
  induction fs with
  | nil =>
    intro resume st
    exact ⟨[], [], by simp [processFiles], by simp [processFiles], rfl, by simp, by simp⟩
  | cons p rest ih =>
    obtain ⟨name, recs⟩ := p
    intro resume st
    by_cases hcond : resume = false ∧ rf ≠ some name
    · obtain ⟨new, newE, h1, h2, h3, h4, h5⟩ := ih resume st
      refine ⟨new, newE, ?_, ?_, h3, ?_, ?_⟩
      · simpa [processFiles, if_pos hcond] using h1
      · simpa [processFiles, if_pos hcond] using h2
      · intro e he
        obtain ⟨ha, hb⟩ := h4 e he
        refine ⟨?_, hb⟩
        simp only [List.map_cons]
        exact List.mem_cons_of_mem _ ha
      · intro hnd
        simp only [List.map_cons, List.nodup_cons] at hnd
        exact h5 hnd.2
    · obtain ⟨new1, newE1, r1, r2, r3, r4, r5, r6⟩ := processRecords_run q rf rl name recs 0 st
      rcases hpr : processRecords q rf rl name recs 0 st with ⟨ab, st2⟩
      rw [hpr] at r1 r2
      cases ab with
      | true =>
        refine ⟨new1, newE1, ?_, ?_, r3, ?_, ?_⟩
        · simpa [processFiles, if_neg hcond, hpr] using r1
        · simpa [processFiles, if_neg hcond, hpr] using r2
        · intro e he
          obtain ⟨ha, hb, hc⟩ := r5 e he
          refine ⟨?_, ?_⟩
          · simp only [List.map_cons, ha]
            exact List.mem_cons_self _ _
          · rw [ha]
            exact hc
        · intro _
          exact nodup_eventPairs r6
      | false =>
        obtain ⟨new2, newE2, s1, s2, s3, s4, s5⟩ := ih true st2
        refine ⟨new1 ++ new2, newE1 ++ newE2, ?_, ?_, ?_, ?_, ?_⟩
        · simp only [processFiles, if_neg hcond, hpr]
          rw [s1, r1, List.append_assoc]
        · simp only [processFiles, if_neg hcond, hpr]
          rw [s2, r2, List.append_assoc]
        · rw [List.map_append, List.filterMap_append, r3, s3]
        · intro e he
          rcases List.mem_append.1 he with he | he
          · obtain ⟨ha, hb, hc⟩ := r5 e he
            refine ⟨?_, ?_⟩
            · simp only [List.map_cons, ha]
              exact List.mem_cons_self _ _
            · rw [ha]
              exact hc
          · obtain ⟨ha, hb⟩ := s4 e he
            refine ⟨?_, hb⟩
            simp only [List.map_cons]
            exact List.mem_cons_of_mem _ ha
        · intro hnd
          simp only [List.map_cons, List.nodup_cons] at hnd
          rw [List.map_append]
          refine List.Nodup.append (nodup_eventPairs r6) (s5 hnd.2) ?_
          intro a haA haB
          obtain ⟨e1, he1, rfl⟩ := List.mem_map.1 haA
          obtain ⟨e2, he2, heq⟩ := List.mem_map.1 haB
          have hn1 : (eventPair e1).1 = name := (r5 e1 he1).1
          have hn2 : (eventPair e2).1 ∈ rest.map Prod.fst := (s4 e2 he2).1
          rw [heq, hn1] at hn2
          exact hnd.1 hn2

lemma processRecords_abort (q : Query) (rf : Option String) (rl : Int) (name : String) :
    ∀ (recs : List Example) (idx : Nat) (st : RunState),
      (processRecords q rf rl name recs idx st).1 = true →
      ∃ j, idx ≤ j ∧
        ((processRecords q rf rl name recs idx st).2).prog =
          save_progress (some name) (j : Int) ∧
        ((processRecords q rf rl name recs idx st).2).events.getLast? =
          some (Event.failed name j) ∧
        (∀ row ∈ ((processRecords q rf rl name recs idx st).2).store,
          row ∈ st.store ∨ (row.source_file = name ∧ row.line_index < j)) := by
  intro recs
  induction recs with
  | nil =>
    intro idx st hab
    simp [processRecords] at hab
  | cons ex rest ih =>
    intro idx st hab
    by_cases hskip : rf = some name ∧ (idx : Int) ≤ rl
    · simp only [processRecords, if_pos hskip] at hab ⊢
      obtain ⟨j, hj, h1, h2, h3⟩ := ih (idx + 1) st hab
      exact ⟨j, by omega, h1, h2, h3⟩
    · by_cases hlim : CATEGORY_LIMIT ≤ st.count
      · simp [processRecords, if_neg hskip, if_pos hlim] at hab
      · cases hq : q ex.context ex.question ex.ans0 ex.ans1 ex.ans2 with
        | none =>
          simp only [processRecords, if_neg hskip, if_neg hlim, hq] at hab ⊢
          refine ⟨idx, Nat.le_refl idx, rfl, ?_, ?_⟩
          · exact List.getLast?_concat _
          · intro row hrow
            exact Or.inl hrow
        | some c =>
          simp only [processRecords, if_neg hskip, if_neg hlim, hq] at hab ⊢
          obtain ⟨j, hj, h1, h2, h3⟩ := ih (idx + 1) _ hab
          refine ⟨j, by omega, h1, h2, ?_⟩
          intro row hrow
          rcases h3 row hrow with hrow2 | hrow2
          · rcases List.mem_append.1 hrow2 with h | h
            · exact Or.inl h
            · simp only [List.mem_singleton] at h
              subst h
              exact Or.inr ⟨rfl, show idx < j by omega⟩
          · exact Or.inr hrow2

lemma processFiles_abort (q : Query) (rf : Option String) (rl : Int) :
    ∀ (fs : List (String × List Example)) (resume : Bool) (st : RunState),
      (fs.map Prod.fst).Nodup →
      (processFiles q rf rl fs resume st).1 = true →
      ∃ (g : String) (j : Nat), g ∈ fs.map Prod.fst ∧
        ((processFiles q rf rl fs resume st).2).prog = save_progress (some g) (j : Int) ∧
        ((processFiles q rf rl fs resume st).2).events.getLast? =
          some (Event.failed g j) ∧
        (∀ row ∈ ((processFiles q rf rl fs resume st).2).store,
          row ∈ st.store ∨ ¬(row.source_file = g ∧ row.line_index = j)) := by
  intro fs
  induction fs with
  | nil =>
    intro resume st _ hab
    simp [processFiles] at hab
  | cons p rest ih =>
    obtain ⟨name, recs⟩ := p
    intro resume st hnd hab
    simp only [List.map_cons, List.nodup_cons] at hnd
    by_cases hcond : resume = false ∧ rf ≠ some name
    · simp only [processFiles, if_pos hcond] at hab ⊢
      obtain ⟨g, j, hg, h1, h2, h3⟩ := ih resume st hnd.2 hab
      refine ⟨g, j, ?_, h1, h2, h3⟩
      simp only [List.map_cons]
      exact List.mem_cons_of_mem _ hg
    · obtain ⟨new1, newE1, r1, r2, r3, r4, r5, r6⟩ := processRecords_run q rf rl name recs 0 st
      rcases hpr : processRecords q rf rl name recs 0 st with ⟨ab, st2⟩
      rw [hpr] at r1 r2
      cases ab with
      | true =>
        have habort := processRecords_abort q rf rl name recs 0 st (by rw [hpr])
        rw [hpr] at habort
        obtain ⟨j, hj, h1, h2, h3⟩ := habort
        simp only [processFiles, if_neg hcond, hpr] at hab ⊢
        refine ⟨name, j, ?_, h1, h2, ?_⟩
        · simp only [List.map_cons]
          exact List.mem_cons_self _ _
        · intro row hrow
          rcases h3 row hrow with h | h
          · exact Or.inl h
          · refine Or.inr ?_
            rintro ⟨hsg, hsj⟩
            omega
      | false =>
        simp only [processFiles, if_neg hcond, hpr] at hab ⊢
        obtain ⟨g, j, hg, h1, h2, h3⟩ := ih true st2 hnd.2 hab
        refine ⟨g, j, ?_, h1, h2, ?_⟩
        · simp only [List.map_cons]
          exact List.mem_cons_of_mem _ hg
        · have r1' : st2.store = st.store ++ new1 := r1
          intro row hrow
          rcases h3 row hrow with h | h
          · rw [r1'] at h
            rcases List.mem_append.1 h with h | h
            · exact Or.inl h
            · have hname : row.source_file = name := (r4 row h).1
              refine Or.inr ?_
              rintro ⟨hsg, hsj⟩
              rw [hname] at hsg
              rw [← hsg] at hg
              exact hnd.1 hg
          · exact Or.inr h

lemma processFiles_skip_one (q : Query) (rf : Option String) (rl : Int)
    (name : String) (recs : List Example) (rest : List (String × List Example))
    (st : RunState) (hne : rf ≠ some name) :
    processFiles q rf rl ((name, recs) :: rest) false st =
      processFiles q rf rl rest false st := by
  simp [processFiles, hne]

lemma processFiles_skip_leading (q : Query) (rf : Option String) (rl : Int) :
    ∀ (pre fs2 : List (String × List Example)) (st : RunState),
      (∀ p ∈ pre, rf ≠ some p.1) →
      processFiles q rf rl (pre ++ fs2) false st = processFiles q rf rl fs2 false st := by
  intro pre
  induction pre with
  | nil =>
    intro fs2 st _
    rfl
  | cons p rest ih =>
    obtain ⟨name, recs⟩ := p
    intro fs2 st h
    rw [List.cons_append, processFiles_skip_one q rf rl name recs (rest ++ fs2) st
      (h (name, recs) (List.mem_cons_self _ _))]
    exact ih fs2 st (fun p hp => h p (List.mem_cons_of_mem _ hp))

lemma processFiles_skip_all (q : Query) (rf : Option String) (rl : Int)
    (fs : List (String × List Example)) (st : RunState)
    (h : ∀ p ∈ fs, rf ≠ some p.1) :
    processFiles q rf rl fs false st = (false, st) := by
  have heq := processFiles_skip_leading q rf rl fs [] st h
  rw [List.append_nil] at heq
  rw [heq]
  rfl

lemma processRecords_skip_one (q : Query) (rl : Int) (name : String)
    (ex : Example) (rest : List Example) (idx : Nat) (st : RunState)
    (hle : (idx : Int) ≤ rl) :
    processRecords q (some name) rl name (ex :: rest) idx st =
      processRecords q (some name) rl name rest (idx + 1) st := by
  simp [processRecords, hle]

lemma processRecords_skip_leading (q : Query) (rl : Int) (name : String) :
    ∀ (skipped rest : List Example) (idx : Nat) (st : RunState),
      ((idx + skipped.length : Nat) : Int) ≤ rl + 1 →
      processRecords q (some name) rl name (skipped ++ rest) idx st =
        processRecords q (some name) rl name rest (idx + skipped.length) st := by
  intro skipped
  induction skipped with
  | nil =>
    intro rest idx st _
    simp
  | cons ex tail ih =>
    intro rest idx st h
    have hle : (idx : Int) ≤ rl := by
      rw [List.length_cons] at h
      push_cast at h
      omega
    rw [List.cons_append, processRecords_skip_one q rl name ex (tail ++ rest) idx st hle]
    have harg : (((idx + 1) + tail.length : Nat) : Int) ≤ rl + 1 := by
      rw [List.length_cons] at h
      push_cast at h ⊢
      omega
    rw [ih rest (idx + 1) st harg]
    have harith : idx + 1 + tail.length = idx + (ex :: tail).length := by
      rw [List.length_cons]
      omega
    rw [harith]

lemma processRecords_head_event (q : Query) (rf : Option String) (rl : Int) (name : String)
    (ex : Example) (rest : List Example) (idx : Nat) (st : RunState)
    (hskip : ¬(rf = some name ∧ (idx : Int) ≤ rl))
    (hcount : st.count < CATEGORY_LIMIT) :
    ∃ e newE, ((processRecords q rf rl name (ex :: rest) idx st).2).events =
        st.events ++ (e :: newE) ∧ eventPair e = (name, idx) := by
  have hlim : ¬(CATEGORY_LIMIT ≤ st.count) := by omega
  cases hq : q ex.context ex.question ex.ans0 ex.ans1 ex.ans2 with
  | none =>
    refine ⟨Event.failed name idx, [], ?_, rfl⟩
    simp [processRecords, if_neg hskip, if_neg hlim, hq]
  | some c =>
    obtain ⟨new, newE, h1, h2, h3, h4, h5, h6⟩ := processRecords_run q rf rl name rest (idx + 1)
      { store := st.store ++ [mkRow name idx ex c]
        prog := save_progress (some name) (idx : Int)
        count := st.count + 1
        events := st.events ++ [Event.classified name idx c] }
    refine ⟨Event.classified name idx c, newE, ?_, rfl⟩
    simp only [processRecords, if_neg hskip, if_neg hlim, hq]
    rw [h2]
    simp

lemma processFiles_head_events (q : Query) (rf : Option String) (rl : Int)
    (name : String) (recs : List Example) (rest : List (String × List Example))
    (resume : Bool) (st : RunState)
    (hcond : resume = true ∨ rf = some name) :
    ∃ newE2, ((processFiles q rf rl ((name, recs) :: rest) resume st).2).events =
      ((processRecords q rf rl name recs 0 st).2).events ++ newE2 := by
  have hc : ¬(resume = false ∧ rf ≠ some name) := by
    rcases hcond with h | h
    · simp [h]
    · simp [h]
  rcases hpr : processRecords q rf rl name recs 0 st with ⟨ab, st2⟩
  cases ab with
  | true =>
    refine ⟨[], ?_⟩
    simp [processFiles, if_neg hc, hpr]
  | false =>
    obtain ⟨new2, newE2, s1, s2, s3, s4, s5⟩ := processFiles_run q rf rl rest true st2
    refine ⟨newE2, ?_⟩
    simp only [processFiles, if_neg hc, hpr]
    exact s2

lemma evaluate_run (q : Query) (files : List (String × List Example))
    (store0 : List ResultRow) (prog0 : Progress) :
    ∃ new newE,
      ((evaluate q files store0 prog0).2).store = store0 ++ new ∧
      ((evaluate q files store0 prog0).2).events = newE ∧
      new.map rowPair = newE.filterMap classifiedPair ∧
      ((files.map Prod.fst).Nodup → (newE.map eventPair).Nodup) := by
  obtain ⟨new, newE, h1, h2, h3, h4, h5⟩ := processFiles_run q prog0.last_file
    prog0.last_line files prog0.last_file.isNone
    { store := store0, prog := prog0, count := 0, events := [] }
  exact ⟨new, newE, h1, by simpa using h2, h3, h5⟩

lemma evaluate_events_afterCursor (q : Query) (files : List (String × List Example))
    (store0 : List ResultRow) (prog0 : Progress)
    (hnd : (files.map Prod.fst).Nodup) :
    ∀ e ∈ ((evaluate q files store0 prog0).2).events,
      pairAfterCursor files prog0 (eventPair e).1 (eventPair e).2 := by
  intro e he
  rcases hlf : prog0.last_file with _ | f
  · simp only [pairAfterCursor, hlf]
  · have heval0 : evaluate q files store0 prog0 =
        processFiles q (some f) prog0.last_line files false
          { store := store0, prog := prog0, count := 0, events := [] } := by
      unfold evaluate
      rw [hlf]
      rfl
    by_cases hf : f ∈ files.map Prod.fst
    case neg =>
      have hskipall := processFiles_skip_all q (some f) prog0.last_line files
        { store := store0, prog := prog0, count := 0, events := [] }
        (fun p hp heq => by
          rw [Option.some.injEq] at heq
          rw [heq] at hf
          exact hf (List.mem_map_of_mem _ hp))
      rw [heval0, hskipall] at he
      simp at he
    case pos =>
      obtain ⟨pp, hpmem, hpfst⟩ := List.mem_map.1 hf
      obtain ⟨pn, recs⟩ := pp
      simp only at hpfst
      subst hpfst
      obtain ⟨pre, post, hdec⟩ := List.append_of_mem hpmem
      have hnames : files.map Prod.fst =
          pre.map Prod.fst ++ pn :: post.map Prod.fst := by
        rw [hdec]
        simp
      have hnd2 := hnd
      rw [hnames] at hnd2
      have hdisj := List.disjoint_of_nodup_append hnd2
      have hpre : ∀ p ∈ pre, (some pn : Option String) ≠ some p.1 := by
        intro p hp heq
        rw [Option.some.injEq] at heq
        have hmem2 : p.1 ∈ pre.map Prod.fst := List.mem_map_of_mem _ hp
        rw [← heq] at hmem2
        exact hdisj hmem2 (List.mem_cons_self _ _)
      have heval : evaluate q files store0 prog0 =
          processFiles q (some pn) prog0.last_line ((pn, recs) :: post) false
            { store := store0, prog := prog0, count := 0, events := [] } := by
        rw [heval0, hdec,
          processFiles_skip_leading q (some pn) prog0.last_line pre ((pn, recs) :: post) _ hpre]
      obtain ⟨new1, newE1, r1, r2, r3, r4, r5, r6⟩ :=
        processRecords_run q (some pn) prog0.last_line pn recs 0
          { store := store0, prog := prog0, count := 0, events := [] }
      rcases hpr : processRecords q (some pn) prog0.last_line pn recs 0
          { store := store0, prog := prog0, count := 0, events := [] } with ⟨ab, st2⟩
      rw [hpr] at r1 r2
      have hE1 : st2.events = newE1 := by simpa using r2
      cases ab with
      | true =>
        have hres : (evaluate q files store0 prog0).2 = st2 := by
          rw [heval]
          simp [processFiles, hpr]
        rw [hres, hE1] at he
        obtain ⟨hn, _, hc⟩ := r5 e he
        have hgt : prog0.last_line < ((eventPair e).2 : Int) := by
          by_contra hle
          exact hc ⟨rfl, by omega⟩
        simp only [pairAfterCursor, hlf]
        exact Or.inl ⟨hn, hgt⟩
      | false =>
        have hres : (evaluate q files store0 prog0).2 =
            (processFiles q (some pn) prog0.last_line post true st2).2 := by
          rw [heval]
          simp [processFiles, hpr]
        obtain ⟨new2, newE2, s1, s2, s3, s4, s5⟩ :=
          processFiles_run q (some pn) prog0.last_line post true st2
        rw [hres, s2, hE1] at he
        rcases List.mem_append.1 he with he | he
        · obtain ⟨hn, _, hc⟩ := r5 e he
          have hgt : prog0.last_line < ((eventPair e).2 : Int) := by
            by_contra hle
            exact hc ⟨rfl, by omega⟩
          simp only [pairAfterCursor, hlf]
          exact Or.inl ⟨hn, hgt⟩
        · obtain ⟨hgmem, _⟩ := s4 e he
          simp only [pairAfterCursor, hlf]
          exact Or.inr ⟨pre, recs, post, hdec, hgmem⟩

lemma evaluate_rows_afterCursor (q : Query) (files : List (String × List Example))
    (store0 : List ResultRow) (prog0 : Progress)
    (hnd : (files.map Prod.fst).Nodup) :
    ∀ row ∈ ((evaluate q files store0 prog0).2).store,
      row ∈ store0 ∨ pairAfterCursor files prog0 row.source_file row.line_index := by
  obtain ⟨new, newE, h1, h2, h3, h4⟩ := evaluate_run q files store0 prog0
  intro row hrow
  rw [h1] at hrow
  rcases List.mem_append.1 hrow with h | h
  · exact Or.inl h
  · right
    have hmem : rowPair row ∈ new.map rowPair := List.mem_map_of_mem _ h
    rw [h3] at hmem
    obtain ⟨e, he, hce⟩ := List.mem_filterMap.1 hmem
    have hpe : eventPair e = rowPair row := by
      cases e with
      | classified a b c =>
        simp only [classifiedPair, Option.some.injEq] at hce
        simpa [eventPair] using hce
      | failed a b => simp [classifiedPair] at hce
    have hafter := evaluate_events_afterCursor q files store0 prog0 hnd e
      (by rw [h2]; exact he)
    rw [hpe] at hafter
    exact hafter

lemma eventPair_of_classifiedPair {e : Event} {a : String × Nat}
    (h : classifiedPair e = some a) : eventPair e = a := by
  cases e with
  | classified f i c =>
    simp only [classifiedPair, Option.some.injEq] at h
    simpa [eventPair] using h
  | failed f i => simp [classifiedPair] at h

lemma length_filterMap_classifiedPair : ∀ (E : List Event),
    (E.filterMap classifiedPair).length = (E.filter Event.isClassified).length := by
  intro E
  induction E with
  | nil => rfl
  | cons e rest ih =>
    cases e with
    | classified f i c => simp [classifiedPair, Event.isClassified, ih]
    | failed f i => simp [classifiedPair, Event.isClassified, ih]

lemma filterMap_classifiedPair_sublist : ∀ (E : List Event),
    (E.filterMap classifiedPair).Sublist (E.map eventPair) := by
  intro E
  induction E with
  | nil => simp
  | cons e rest ih =>
    cases e with
    | classified f i c =>
      simp only [List.filterMap_cons, classifiedPair, List.map_cons, eventPair]
      exact ih.cons₂ _
    | failed f i =>
      simp only [List.filterMap_cons, classifiedPair, List.map_cons, eventPair]
      exact ih.cons _

lemma evaluate_first_event_resume (q : Query) (files : List (String × List Example))
    (store0 : List ResultRow) (f : String) (n : Nat) (recs : List Example)
    (hnd : (files.map Prod.fst).Nodup) (hmem : (f, recs) ∈ files)
    (hlen : n + 1 < recs.length) :
    ∃ e, ((evaluate q files store0 (save_progress (some f) (n : Int))).2).events.head? =
        some e ∧ eventPair e = (f, n + 1) := by
  obtain ⟨pre, post, hdec⟩ := List.append_of_mem hmem
  have hnames : files.map Prod.fst = pre.map Prod.fst ++ f :: post.map Prod.fst := by
    rw [hdec]
    simp
  have hnd2 := hnd
  rw [hnames] at hnd2
  have hdisj := List.disjoint_of_nodup_append hnd2
  have hpre : ∀ p ∈ pre, (some f : Option String) ≠ some p.1 := by
    intro p hp heq
    rw [Option.some.injEq] at heq
    have hmem2 : p.1 ∈ pre.map Prod.fst := List.mem_map_of_mem _ hp
    rw [← heq] at hmem2
    exact hdisj hmem2 (List.mem_cons_self _ _)
  have heval : evaluate q files store0 (save_progress (some f) (n : Int)) =
      processFiles q (some f) (n : Int) ((f, recs) :: post) false
        { store := store0, prog := save_progress (some f) (n : Int),
          count := 0, events := [] } := by
    unfold evaluate
    rw [show (save_progress (some f) (n : Int)).last_file = some f from rfl,
      show (save_progress (some f) (n : Int)).last_line = (n : Int) from rfl]
    simp only [Option.isNone_some]
    rw [hdec, processFiles_skip_leading q (some f) (n : Int) pre ((f, recs) :: post) _ hpre]
  obtain ⟨newE2, hE2⟩ := processFiles_head_events q (some f) (n : Int) f recs post false
    { store := store0, prog := save_progress (some f) (n : Int), count := 0, events := [] }
    (Or.inr rfl)
  have hlentake : (recs.take (n + 1)).length = n + 1 := by
    rw [List.length_take]
    omega
  obtain ⟨ex1, rest1, hdrop⟩ := List.exists_cons_of_ne_nil
    (l := recs.drop (n + 1)) (by
      intro hnil
      have hlen2 := List.length_drop (n + 1) recs
      rw [hnil] at hlen2
      simp only [List.length_nil] at hlen2
      omega)
  have hrecs : processRecords q (some f) (n : Int) f recs 0
      { store := store0, prog := save_progress (some f) (n : Int),
        count := 0, events := [] } =
      processRecords q (some f) (n : Int) f (ex1 :: rest1) (n + 1)
      { store := store0, prog := save_progress (some f) (n : Int),
        count := 0, events := [] } := by
    conv_lhs => rw [(List.take_append_drop (n + 1) recs).symm]
    rw [processRecords_skip_leading q (n : Int) f (recs.take (n + 1)) (recs.drop (n + 1)) 0 _
      (by rw [hlentake]; push_cast; omega)]
    have hidx : 0 + (recs.take (n + 1)).length = n + 1 := by
      rw [hlentake]
      omega
    rw [hidx, hdrop]
  obtain ⟨e, newE, hev, hpair⟩ := processRecords_head_event q (some f) (n : Int) f ex1 rest1
    (n + 1)
    { store := store0, prog := save_progress (some f) (n : Int), count := 0, events := [] }
    (by rintro ⟨-, hle⟩; omega)
    (by show (0 : Nat) < CATEGORY_LIMIT; decide)
  refine ⟨e, ?_, hpair⟩
  rw [heval, hE2, hrecs, hev]
  simp

lemma evaluate_first_event_start (q : Query) (store0 : List ResultRow) (prog0 : Progress)
    (g : String) (ex0 : Example) (recs0 : List Example)
    (rest : List (String × List Example))
    (hlf : prog0.last_file = none) :
    ∃ e, ((evaluate q ((g, ex0 :: recs0) :: rest) store0 prog0).2).events.head? = some e ∧
      eventPair e = (g, 0) := by
  have heval : evaluate q ((g, ex0 :: recs0) :: rest) store0 prog0 =
      processFiles q none prog0.last_line ((g, ex0 :: recs0) :: rest) true
        { store := store0, prog := prog0, count := 0, events := [] } := by
    unfold evaluate
    rw [hlf]
    rfl
  obtain ⟨newE2, hE2⟩ := processFiles_head_events q none prog0.last_line g (ex0 :: recs0) rest
    true { store := store0, prog := prog0, count := 0, events := [] } (Or.inl rfl)
  obtain ⟨e, newE, hev, hpair⟩ := processRecords_head_event q none prog0.last_line g ex0 recs0
    0 { store := store0, prog := prog0, count := 0, events := [] }
    (by rintro ⟨habs, -⟩; exact Option.noConfusion habs)
    (by show (0 : Nat) < CATEGORY_LIMIT; decide)
  refine ⟨e, ?_, hpair⟩
  rw [heval, hE2, hev]
  simp

/-- C2 (corrected): when `classify` raises on the very first record of a file,
the persisted cursor is (that file, line 0) — the failing record itself — and
not the claim's (file=null, line=-1). -/
theorem claim2_counterexample :
    (evaluate qFail [("a.jsonl", [exW])] [] load_progress_default).2.prog ≠
        save_progress none (-1) ∧
    (evaluate qFail [("a.jsonl", [exW])] [] load_progress_default).2.prog =
        save_progress (some "a.jsonl") 0 := by
  constructor
  · decide
  · decide

/-- C2 (amended): when a run terminates through the `query_groq` exception
path with persisted cursor (g, j), the failure at (g, j) is the last observed
event, no result row for (g, j) was appended, and the new cursor places (g, j)
at-or-before itself — so the next invocation skips the failed record and
resumes at line j+1 rather than retrying it. -/
theorem claim2_amended (q : Query) (files : List (String × List Example))
    (store0 : List ResultRow) (prog0 : Progress) (g : String) (j : Nat)
    (hnd : (files.map Prod.fst).Nodup)
    (hab : (evaluate q files store0 prog0).1 = true)
    (hprog : ((evaluate q files store0 prog0).2).prog = save_progress (some g) (j : Int)) :
    ((evaluate q files store0 prog0).2).events.getLast? = some (Event.failed g j) ∧
    (∀ row ∈ ((evaluate q files store0 prog0).2).store,
      row ∈ store0 ∨ ¬(row.source_file = g ∧ row.line_index = j)) ∧
    ¬ pairAfterCursor files (save_progress (some g) (j : Int)) g j := by
  have hab2 : (processFiles q prog0.last_file prog0.last_line files
      prog0.last_file.isNone
      { store := store0, prog := prog0, count := 0, events := [] }).1 = true := hab
  obtain ⟨g2, j2, hg2, h1, h2, h3⟩ := processFiles_abort q prog0.last_file prog0.last_line
    files prog0.last_file.isNone
    { store := store0, prog := prog0, count := 0, events := [] } hnd hab2
  have h1e : ((evaluate q files store0 prog0).2).prog = save_progress (some g2) (j2 : Int) := h1
  rw [hprog] at h1e
  have hgj : g = g2 ∧ (j : Int) = (j2 : Int) := by
    simpa [save_progress, Progress.mk.injEq] using h1e
  obtain ⟨hgeq, hj⟩ := hgj
  subst hgeq
  have hjeq : j = j2 := by exact_mod_cast hj
  subst hjeq
  refine ⟨h2, ?_, ?_⟩
  · intro row hrow
    exact h3 row hrow
  · simp only [pairAfterCursor, save_progress]
    rintro (⟨-, hlt⟩ | hfa2)
    · omega
    · obtain ⟨pre, recs, post, hdec, hmem⟩ := hfa2
      have hnames : files.map Prod.fst = pre.map Prod.fst ++ g :: post.map Prod.fst := by
        rw [hdec]
        simp
      rw [hnames] at hnd
      have hcons := (List.nodup_append.1 hnd).2.1
      rw [List.nodup_cons] at hcons
      exact hcons.1 hmem

theorem claim2_witness :
    ((evaluate qFail [("a.jsonl", [exW])] [] load_progress_default).2).events.getLast? =
      some (Event.failed "a.jsonl" 0) :=
  (claim2_amended qFail [("a.jsonl", [exW])] [] load_progress_default "a.jsonl" 0
    (by decide) (by decide) (by decide)).1

/-- C3 (corrected): with a 6-record file followed by a second file, the run
classifies the first five records of file a, hits the cap, resets the counter
and breaks — and then classifies the first record of file b in the same
invocation, so further records ARE processed after the cap was reached. -/
theorem claim3_counterexample :
    CATEGORY_LIMIT = 5 ∧
    ((evaluate qA [("a.jsonl", List.replicate 6 exW), ("b.jsonl", [exW])] []
        load_progress_default).2).events =
      [Event.classified "a.jsonl" 0 "A", Event.classified "a.jsonl" 1 "A",
       Event.classified "a.jsonl" 2 "A", Event.classified "a.jsonl" 3 "A",
       Event.classified "a.jsonl" 4 "A", Event.classified "b.jsonl" 0 "A"] := by
  constructor
  · rfl
  · decide

/-- C3 (amended): once the per-invocation counter has reached CATEGORY_LIMIT,
the current file's loop stops cleanly — no abort, no further record of that
file processed, nothing appended, progress unchanged (the counter is reset to
zero, so processing continues with the next file of the same invocation). -/
theorem claim3_amended (q : Query) (rf : Option String) (rl : Int) (name : String)
    (recs : List Example) (idx : Nat) (st : RunState)
    (h : CATEGORY_LIMIT ≤ st.count) :
    (processRecords q rf rl name recs idx st).1 = false ∧
    ((processRecords q rf rl name recs idx st).2).store = st.store ∧
    ((processRecords q rf rl name recs idx st).2).events = st.events ∧
    ((processRecords q rf rl name recs idx st).2).prog = st.prog := by
  induction recs generalizing idx with
  | nil => exact ⟨rfl, rfl, rfl, rfl⟩
  | cons ex rest ih =>
    by_cases hskip : rf = some name ∧ (idx : Int) ≤ rl
    · simp only [processRecords, if_pos hskip]
      exact ih (idx + 1)
    · simp [processRecords, if_neg hskip, if_pos h]

theorem claim3_witness :
    (processRecords qA none (-1) "a.jsonl" [exW] 0 stAtLimit).1 = false ∧
    ((processRecords qA none (-1) "a.jsonl" [exW] 0 stAtLimit).2).store = stAtLimit.store ∧
    ((processRecords qA none (-1) "a.jsonl" [exW] 0 stAtLimit).2).events = stAtLimit.events ∧
    ((processRecords qA none (-1) "a.jsonl" [exW] 0 stAtLimit).2).prog = stAtLimit.prog :=
  claim3_amended qA none (-1) "a.jsonl" [exW] 0 stAtLimit (by decide)

/-- C4 (confirmed): with distinct file names, a new invocation touches only
positions strictly after the persisted cursor (no record at or before it is
reclassified or re-appended); with cursor (f, n) and a record at line n+1 of
f, the first classify-or-fail event of the run is at (f, n+1); with a null
cursor it is at line 0 of the first file. -/
theorem claim4_resume (q : Query) (files : List (String × List Example))
    (store0 : List ResultRow) (prog0 : Progress)
    (hnd : (files.map Prod.fst).Nodup) :
    (∀ e ∈ ((evaluate q files store0 prog0).2).events,
        pairAfterCursor files prog0 (eventPair e).1 (eventPair e).2) ∧
    (∀ row ∈ ((evaluate q files store0 prog0).2).store,
        row ∈ store0 ∨ pairAfterCursor files prog0 row.source_file row.line_index) ∧
    (∀ (f : String) (n : Nat) (recs : List Example),
        prog0 = save_progress (some f) (n : Int) → (f, recs) ∈ files →
        n + 1 < recs.length →
        ∃ e, ((evaluate q files store0 prog0).2).events.head? = some e ∧
          eventPair e = (f, n + 1)) ∧
    (∀ (g : String) (ex0 : Example) (recs0 : List Example)
        (rest : List (String × List Example)),
        prog0.last_file = none → files = (g, ex0 :: recs0) :: rest →
        ∃ e, ((evaluate q files store0 prog0).2).events.head? = some e ∧
          eventPair e = (g, 0)) := by
  refine ⟨evaluate_events_afterCursor q files store0 prog0 hnd,
    evaluate_rows_afterCursor q files store0 prog0 hnd, ?_, ?_⟩
  · intro f n recs hprog hmem hlen
    subst hprog
    exact evaluate_first_event_resume q files store0 f n recs hnd hmem hlen
  · intro g ex0 recs0 rest hlf hfiles
    subst hfiles
    exact evaluate_first_event_start q store0 prog0 g ex0 recs0 rest hlf

theorem claim4_witness :
    pairAfterCursor [("a.jsonl", [exW, exW])] (save_progress (some "a.jsonl") 0)
      "a.jsonl" 1 :=
  (claim4_resume qA [("a.jsonl", [exW, exW])] [] (save_progress (some "a.jsonl") 0)
    (by decide)).1 (Event.classified "a.jsonl" 1 "A") (by decide)

/-- C8 (confirmed): a run appends exactly one result row per successful
classification (store grows from N to N+M rows, prior rows untouched), and
when prior rows all sit at-or-before the cursor and file names are distinct,
no two rows of the final store share a (source_file, line_index) pair. -/
theorem claim8_rows (q : Query) (files : List (String × List Example))
    (store0 : List ResultRow) (prog0 : Progress)
    (hnd : (files.map Prod.fst).Nodup)
    (h0 : (store0.map rowPair).Nodup)
    (hdisj : ∀ row ∈ store0, ¬ pairAfterCursor files prog0 row.source_file row.line_index) :
    ((evaluate q files store0 prog0).2).store.length =
      store0.length +
        (((evaluate q files store0 prog0).2).events.filter Event.isClassified).length ∧
    (∃ new, ((evaluate q files store0 prog0).2).store = store0 ++ new ∧
      new.map rowPair = ((evaluate q files store0 prog0).2).events.filterMap classifiedPair) ∧
    (((evaluate q files store0 prog0).2).store.map rowPair).Nodup := by
  obtain ⟨new, newE, h1, h2, h3, h4⟩ := evaluate_run q files store0 prog0
  refine ⟨?_, ⟨new, h1, by rw [h2]; exact h3⟩, ?_⟩
  · rw [h1, h2, List.length_append]
    congr 1
    rw [← length_filterMap_classifiedPair, ← h3, List.length_map]
  · rw [h1, List.map_append]
    refine List.Nodup.append h0 ?_ ?_
    · rw [h3]
      exact List.Nodup.sublist (filterMap_classifiedPair_sublist newE) (h4 hnd)
    · intro a ha0 han
      obtain ⟨row0, hr0, hpr0⟩ := List.mem_map.1 ha0
      rw [h3] at han
      obtain ⟨e, he, hce⟩ := List.mem_filterMap.1 han
      have hpe := eventPair_of_classifiedPair hce
      have hafter := evaluate_events_afterCursor q files store0 prog0 hnd e
        (by rw [h2]; exact he)
      rw [hpe] at hafter
      subst hpr0
      exact hdisj row0 hr0 hafter

theorem claim8_witness :
    ((evaluate qA [("a.jsonl", [exW])] [] load_progress_default).2).store.length =
      ([] : List ResultRow).length +
        (((evaluate qA [("a.jsonl", [exW])] [] load_progress_default).2).events.filter
          Event.isClassified).length :=
  (claim8_rows qA [("a.jsonl", [exW])] [] load_progress_default (by decide) (by simp)
    (by simp)).1

/-- C9 (confirmed): the derived correct flag of a result row is true exactly
when the model's answer letter maps (via the letter-to-index table) to the
record's ground-truth index; an unmapped letter such as "D" maps to no index
and yields correct = false for every ground truth, without raising. -/
theorem claim9_correct_flag :
    (∀ (name : String) (idx : Nat) (ex : Example) (choice : String),
        ((mkRow name idx ex choice).correct = true ↔
          letter_to_idx choice = some ex.label)) ∧
    letter_to_idx "D" = none ∧
    (∀ (name : String) (idx : Nat) (ex : Example),
        (mkRow name idx ex "D").correct = false) ∧
    (mkRow "f.jsonl" 0 exW "B").correct = true := by
  refine ⟨?_, by decide, ?_, by decide⟩
  · intro name idx ex choice
    simp [mkRow]
  · intro name idx ex
    have hD : letter_to_idx "D" = none := by decide
    simp [mkRow, hD]

end Evaluation
